import Mathlib

/-!
Verification of the module-graph build configurator's link-order and
dependency-resolution engine against its specification.

The repository's sources under verification consist of the test suite
(`cc/cc_test.go`); the implementations exercised by those tests
(`orderDeps` in `cc/cc.go`, the variant resolver, and the boundary
policy checks) are not part of the provided sources, so they are
modelled here from the specification, and every model is validated
against the literal test cases recorded in `cc/cc_test.go`
(`staticLinkDepOrderTestCases`, `TestLinkReordering`,
`TestVersionedStubs`, `TestVndkDepError`,
`TestErrorsIfAModuleDependsOnDisabled`, `TestDoubleLoadableDepError`).
-/

set_option maxRecDepth 8192
set_option linter.unusedSectionVars false

namespace SoongModel

/-! ## Link-order stage (spec section 4.5) -/

section LinkOrderDefs

variable {M : Type} [DecidableEq M]

/-- Modelled from the spec: section 4.5 duplicate handling — "Duplicate
entries are collapsed to their last required position; first-seen
duplicates are removed."  `lastUnique` keeps, for each element, only its
last occurrence in the list, preserving relative order otherwise. -/
def lastUnique : List M → List M
  | [] => []
  | x :: xs => if x ∈ xs then lastUnique xs else x :: lastUnique xs

/-- Each direct dependency followed by its recorded transitive-dependency
list, concatenated in declared order. -/
def depChunks (f : M → List M) : List M → List M
  | [] => []
  | d :: ds => d :: (f d ++ depChunks f ds)

/-- Modelled from the spec: section 4.5 `orderDeps(staticDeps, sharedDeps,
allTransitiveStatic) -> (allOrderedTransitive, orderedDirect)`.  The
implementation in `cc/cc.go` is not under the provided sources (only its
tests in `cc/cc_test.go` are); following the spec's own instruction
(section 9) that the worked examples of section 8 and the literal test
cases are the authoritative behavior, the model lists every direct
dependency followed by its recorded transitive list (static chunks first,
then shared chunks), collapses duplicates to their last required
position, and restricts the direct output to the declared static
dependencies.  This model reproduces every case of
`staticLinkDepOrderTestCases`. -/
def orderDeps (directStaticDeps directSharedDeps : List M)
    (allTransitiveDeps : M → List M) : List M × List M :=
  let allDepsList := depChunks allTransitiveDeps directStaticDeps ++
    depChunks allTransitiveDeps directSharedDeps
  let orderedAllDeps := lastUnique allDepsList
  (orderedAllDeps, orderedAllDeps.filter (fun x => decide (x ∈ directStaticDeps)))

/-- One pass of the bottom-up link-order pipeline: modules are processed
in the given order, each module's ordered transitive closure being
computed by `orderDeps` from the closures already recorded for its direct
dependencies. -/
def runPipeline (g gs : M → List M) :
    (M → List M × List M) → List M → M → List M × List M
  | acc, [] => acc
  | acc, m :: rest =>
      runPipeline g gs
        (fun x => if x = m then orderDeps (g m) (gs m) (fun d => (acc d).1) else acc x)
        rest

/-- The link-order records (`orderedAllDeps`, `orderedDeclaredDeps`) of
every module, computed bottom-up over a processing order. -/
def linkOrders (g gs : M → List M) (order : List M) : M → List M × List M :=
  runPipeline g gs (fun _ => ([], [])) order

/-- `depsSeen g gs seen order` holds when every module in `order` has all
of its direct (static and shared) dependencies processed before it — the
bottom-up processing discipline, which exists exactly when the dependency
relation restricted to the processed modules is acyclic. -/
def depsSeen (g gs : M → List M) : List M → List M → Bool
  | _, [] => true
  | seen, m :: rest =>
      (g m ++ gs m).all (fun d => decide (d ∈ seen)) && depsSeen g gs (m :: seen) rest

/-- Transitive (non-reflexive) dependency: `Reaches g a b` holds when `b`
is reachable from `a` through one or more direct dependency edges. -/
inductive Reaches (g : M → List M) : M → M → Prop
  | direct {a b : M} : b ∈ g a → Reaches g a b
  | step {a b c : M} : b ∈ g a → Reaches g b c → Reaches g a c

/-- Every element of the list is followed, within the remainder of the
list, by each of its `R`-successors. -/
def FollowedBy (R : M → M → Prop) : List M → Prop
  | [] => True
  | x :: xs => (∀ b, R x b → b ∈ xs) ∧ FollowedBy R xs

/-- `b` appears strictly after (some occurrence of) `a` in the list. -/
def Before (l : List M) (a b : M) : Prop :=
  ∃ l₁ l₂, l = l₁ ++ a :: l₂ ∧ b ∈ l₂

/-- The invariant of one module's link-order record: the recorded
transitive closure contains every transitively reachable module, each
entry is followed by all modules it reaches, the list is duplicate-free,
and the declared-direct output is its restriction to the declared static
dependencies. -/
def GoodPair (g gs : M → List M) (m : M) (p : List M × List M) : Prop :=
  (∀ b, Reaches (fun x => g x ++ gs x) m b → b ∈ p.1) ∧
  FollowedBy (Reaches (fun x => g x ++ gs x)) p.1 ∧
  p.1.Nodup ∧
  p.2 = p.1.filter (fun x => decide (x ∈ g m))

/-- The per-module invariant established by the link-order pipeline. -/
def GoodRecord (g gs : M → List M) (acc : M → List M × List M) (m : M) : Prop :=
  GoodPair g gs m (acc m)

end LinkOrderDefs

/-! ## Versioned-stub selection (spec sections 4.4 and 8) -/

/-- Decimal parse of a character list: `some` of the value when every
character is a digit, `none` otherwise. -/
def parseNatAux : List Char → Nat → Option Nat
  | [], acc => some acc
  | c :: cs, acc =>
      if c.isDigit then parseNatAux cs (acc * 10 + (c.toNat - 48)) else none

/-- Decimal parse of a version string: `some` of its value when the
string is a nonempty all-digit string, `none` otherwise. -/
def parseNat? (s : String) : Option Nat :=
  match s.data with
  | [] => none
  | c :: cs => parseNatAux (c :: cs) 0

/-- A version list is numeric when every version string parses as a
number. -/
def allNumeric (vs : List String) : Bool :=
  vs.all (fun v => (parseNat? v).isSome)

/-- Numeric comparison of version strings (missing parses default to 0;
only used when all versions are numeric). -/
def numLess (a b : String) : Bool :=
  decide ((parseNat? a).getD 0 < (parseNat? b).getD 0)

/-- Lexicographic comparison of character lists by character code. -/
def lexLtChars : List Char → List Char → Bool
  | [], [] => false
  | [], _ :: _ => true
  | _ :: _, [] => false
  | a :: as, b :: bs =>
      if a.toNat < b.toNat then true
      else if b.toNat < a.toNat then false
      else lexLtChars as bs

/-- Lexicographic comparison of version strings. -/
def lexLess (a b : String) : Bool :=
  lexLtChars a.data b.data

/-- Modelled from the spec: the version order used for "latest available
stub version" — "numeric-max if versions are numeric strings, else
lexicographically max" (section 4.4). -/
def versionLt (vs : List String) (a b : String) : Bool :=
  if allNumeric vs then numLess a b else lexLess a b

/-- Modelled from the spec: the latest available stub version among the
target's versions, maximal under `versionLt`. -/
def versionLatest (vs : List String) : Option String :=
  match vs with
  | [] => none
  | v :: rest =>
      some (rest.foldl (fun best w => if versionLt (v :: rest) best w then w else best) v)

/-- Modelled from the spec: stub-version selection for a dependency edge
on a module exposing versioned stub variants (section 4.4).  An explicit
`name#version` reference accepts only that exact version with no
fallback; an unversioned reference selects the latest available stub
version.  The implementation is not under the provided sources; the
behavior is recorded by `TestVersionedStubs` in `cc/cc_test.go`. -/
def resolveStubVersion (availableVersions : List String) (ref : Option String) :
    Option String :=
  match ref with
  | some v => if v ∈ availableVersions then some v else none
  | none => versionLatest availableVersions

/-! ## Dependency resolver (spec section 4.4) -/

/-- One concrete variant of a module: owning module name, ordered
variation tuple of (axis, value) pairs, enabled flag. -/
structure Variant where
  moduleName : String
  variations : List (String × String)
  enabled : Bool
deriving DecidableEq

/-- The resolver's error kinds (spec sections 4.4 and 7). -/
inductive ResolveError where
  | missingVariant (source target : String) (axis : Option String)
  | dependsOnDisabledModule (source target : String)
  | ambiguousVariant (source target : String)
deriving DecidableEq

/-- Two variation tuples match on all axes both share: for every axis
named in both, the values agree. -/
def axesMatch (src tgt : List (String × String)) : Bool :=
  src.all (fun p => tgt.all (fun q => p.1 != q.1 || p.2 == q.2))

/-- The variants of the target module whose variation tuple matches the
source variant's on every shared axis. -/
def matchingVariants (src : Variant) (targetName : String)
    (variants : List Variant) : List Variant :=
  variants.filter (fun t => t.moduleName == targetName && axesMatch src.variations t.variations)

/-- The first axis of the source's variation tuple on which some variant
of the target module carries a differing value (reported by
`MissingVariantError`). -/
def unmatchedAxis (src : Variant) (targetVariants : List Variant) : Option String :=
  (src.variations.find? (fun p =>
    targetVariants.any (fun t =>
      t.variations.any (fun q => p.1 == q.1 && p.2 != q.2)))).map (fun p => p.1)

/-- Modelled from the spec: resolution of one loose dependency edge
(section 4.4) — find the variant of the target module whose variation
tuple matches the source's on all shared axes; zero matches is a
`MissingVariantError` naming source, target and the unmatched axis; a
disabled match is a `DependsOnDisabledModuleError`; multiple matches are
an `AmbiguousVariantError`.  The resolver implementation is not under
the provided sources; the behavior is recorded by `TestVndkDepError` and
`TestErrorsIfAModuleDependsOnDisabled` in `cc/cc_test.go`. -/
def resolveEdge (src : Variant) (targetName : String) (variants : List Variant) :
    Except ResolveError Variant :=
  match matchingVariants src targetName variants with
  | [] => .error (.missingVariant src.moduleName targetName
      (unmatchedAxis src (variants.filter (fun t => t.moduleName == targetName))))
  | [t] =>
      if t.enabled then .ok t
      else .error (.dependsOnDisabledModule src.moduleName t.moduleName)
  | _ :: _ :: _ => .error (.ambiguousVariant src.moduleName targetName)

/-- Modelled from the spec: the generator-visible topological traversal
visits only enabled variants of the finalized graph — "a module declared
disabled ... must never appear in any generator-visible topological
traversal" (section 8). -/
def generatorTraversal (variants : List Variant) : List Variant :=
  variants.filter (fun v => v.enabled)

/-! ## Cross-boundary policy check (spec sections 4.6 and 8) -/

/-- A module as seen by the boundary policy validator: its name, whether
it belongs to a restricted/ABI-stable classification, whether its own
classification is allow-listed for such dependents, whether it is marked
compatible (e.g. double-loadable), and its declared dependencies. -/
structure PolicyModule where
  name : String
  restricted : Bool
  allowListed : Bool
  compatible : Bool
  deps : List String
deriving DecidableEq

/-- A boundary-policy violation naming the depending and target modules. -/
structure BoundaryPolicyError where
  source : String
  target : String
deriving DecidableEq

/-- The violations contributed by a single restricted module: one error
per declared dependency whose target is neither allow-listed nor marked
compatible. -/
def moduleViolations (mods : List PolicyModule) (m : PolicyModule) :
    List BoundaryPolicyError :=
  if m.restricted then
    m.deps.foldr (fun d acc =>
      ((mods.filter (fun t => t.name == d && !t.allowListed && !t.compatible)).map
        (fun t => ⟨m.name, t.name⟩)) ++ acc) []
  else []

/-- Modelled from the spec: the cross-boundary policy validator (section
4.6 (a)) — "a module in a restricted/ABI-stable classification must not
declare a dependency edge to a module outside an allow-listed
classification unless the target is itself marked compatible"; every
violation is reported as an error naming both modules and the graph is
never repaired.  The check implementation is not under the provided
sources; the behavior is recorded by `TestVndkDepError` and
`TestDoubleLoadableDepError` in `cc/cc_test.go`. -/
def boundaryCheck (mods : List PolicyModule) : List BoundaryPolicyError :=
  mods.foldr (fun m acc => moduleViolations mods m ++ acc) []

/-! ## Concrete inputs drawn from the recorded test cases -/

/-- No shared dependencies / empty transitive map. -/
def emptyDeps : String → List String := fun _ => []

/-- The diamond static graph of the spec's worked example:
`a:b,c,d; b:d; c:d; d:` (spec section 8, `staticLinkDepOrderTestCases`). -/
def diamondStatic : String → List String := fun m =>
  if m = "a" then ["b", "c", "d"]
  else if m = "b" then ["d"]
  else if m = "c" then ["d"]
  else []

/-- A bottom-up processing order for the diamond graph. -/
def diamondOrder : List String := ["d", "b", "c", "a"]

/-- Tie-break case `a1:d,e,b1,c1; b1:d,e; c1:e,d` from
`staticLinkDepOrderTestCases`. -/
def tieStartMap : String → List String := fun m =>
  if m = "b1" then ["d", "e"]
  else if m = "c1" then ["e", "d"]
  else []

/-- Tie-break case `a1:b,c,d,e; b:d,e; c:e,d` from
`staticLinkDepOrderTestCases`. -/
def tieEndMap : String → List String := fun m =>
  if m = "b" then ["d", "e"]
  else if m = "c" then ["e", "d"]
  else []

/-- The cyclic case `a:b,c; b:c,a; c:a,b` from
`staticLinkDepOrderTestCases`. -/
def cycleMap : String → List String := fun m =>
  if m = "a" then ["b", "c"]
  else if m = "b" then ["c", "a"]
  else if m = "c" then ["a", "b"]
  else []

/-- The self-loop case `a:a` from `staticLinkDepOrderTestCases`. -/
def selfLoopMap : String → List String := fun m =>
  if m = "a" then ["a"] else []

/-- The three-cycle case `a:b; b:c; c:a` from
`staticLinkDepOrderTestCases`. -/
def chainCycleMap : String → List String := fun m =>
  if m = "a" then ["b"]
  else if m = "b" then ["c"]
  else if m = "c" then ["a"]
  else []

/-- The no-new-transitive-deps case `bin:lib2,lib1; lib1:lib2,liboptional`
from `staticLinkDepOrderTestCases`. -/
def binMap : String → List String := fun m =>
  if m = "lib1" then ["lib2", "liboptional"] else []

/-- The source variant of `TestVndkDepError`'s first scenario: the vendor
image variant of `libvndk`. -/
def vndkSrcVariant : Variant :=
  ⟨"libvndk", [("image", "vendor")], true⟩

/-- The available variants of `libfwk` in that scenario: only a core
image variant exists. -/
def fwkVariants : List Variant :=
  [⟨"libfwk", [("image", "core")], true⟩]

/-- The source variant of `TestErrorsIfAModuleDependsOnDisabled`:
`libA`. -/
def libAVariant : Variant :=
  ⟨"libA", [("arch", "arm64")], true⟩

/-- The target variants in that scenario: `libB` is declared
`enabled: false`. -/
def libBVariants : List Variant :=
  [⟨"libB", [("arch", "arm64")], false⟩]

/-- An enabled target scenario used to exercise successful binding. -/
def libCVariants : List Variant :=
  [⟨"libC", [("arch", "arm64")], true⟩]

/-- The boundary-check scenario of `TestDoubleLoadableDepError`: an
LL-NDK (restricted classification) library depending on a
`vendor_available` library that is neither in an allow-listed
classification nor marked `double_loadable`. -/
def llndkModule : PolicyModule :=
  ⟨"libllndk", true, true, true, ["libnondoubleloadable"]⟩

/-- The non-allow-listed, non-compatible target of that scenario. -/
def nonDoubleLoadableModule : PolicyModule :=
  ⟨"libnondoubleloadable", false, false, false, []⟩

/-- The module set of the boundary-check scenario. -/
def boundaryScenario : List PolicyModule :=
  [llndkModule, nonDoubleLoadableModule]

/-! ## Basic lemmas about the link-order primitives -/

section LinkOrderLemmas

variable {M : Type} [DecidableEq M]

theorem mem_lastUnique {l : List M} {a : M} : a ∈ lastUnique l ↔ a ∈ l := by
  induction l with
  | nil => simp [lastUnique]
  | cons x xs ih =>
    by_cases hx : x ∈ xs
    · simp only [lastUnique, if_pos hx, ih, List.mem_cons]
      constructor
      · exact Or.inr
      · rintro (rfl | h)
        · exact hx
        · exact h
    · simp [lastUnique, if_neg hx, ih]

theorem nodup_lastUnique (l : List M) : (lastUnique l).Nodup := by
  induction l with
  | nil => simp [lastUnique]
  | cons x xs ih =>
    by_cases hx : x ∈ xs
    · simpa [lastUnique, if_pos hx] using ih
    · simp only [lastUnique, if_neg hx, List.nodup_cons]
      exact ⟨fun hmem => hx (mem_lastUnique.mp hmem), ih⟩

theorem followedBy_append {R : M → M → Prop} {l₁ l₂ : List M}
    (h₁ : FollowedBy R l₁) (h₂ : FollowedBy R l₂) : FollowedBy R (l₁ ++ l₂) := by
  induction l₁ with
  | nil => simpa using h₂
  | cons x xs ih =>
    obtain ⟨hx, hxs⟩ := h₁
    exact ⟨fun b hb => List.mem_append_left _ (hx b hb), ih hxs⟩

theorem followedBy_lastUnique {R : M → M → Prop} {l : List M}
    (h : FollowedBy R l) : FollowedBy R (lastUnique l) := by
  induction l with
  | nil => simpa [lastUnique] using h
  | cons x xs ih =>
    obtain ⟨hx, hxs⟩ := h
    by_cases hmem : x ∈ xs
    · simpa [lastUnique, if_pos hmem] using ih hxs
    · simp only [lastUnique, if_neg hmem]
      exact ⟨fun b hb => mem_lastUnique.mpr (hx b hb), ih hxs⟩

theorem before_of_followedBy {R : M → M → Prop} {l : List M} {a b : M}
    (h : FollowedBy R l) (ha : a ∈ l) (hab : R a b) : Before l a b := by
  induction l with
  | nil => cases ha
  | cons x xs ih =>
    obtain ⟨hx, hxs⟩ := h
    rcases List.mem_cons.mp ha with rfl | ha'
    · exact ⟨[], xs, rfl, hx b hab⟩
    · obtain ⟨l₁, l₂, heq, hb⟩ := ih hxs ha'
      exact ⟨x :: l₁, l₂, by rw [heq]; rfl, hb⟩

theorem mem_of_before {l : List M} {a b : M} (h : Before l a b) : b ∈ l := by
  obtain ⟨l₁, l₂, heq, hb⟩ := h
  rw [heq]
  exact List.mem_append_right _ (List.mem_cons_of_mem _ hb)

theorem before_filter {l : List M} {a b : M} {p : M → Bool}
    (h : Before l a b) (hpa : p a = true) (hpb : p b = true) :
    Before (l.filter p) a b := by
  obtain ⟨l₁, l₂, heq, hb⟩ := h
  refine ⟨l₁.filter p, l₂.filter p, ?_, ?_⟩
  · rw [heq, List.filter_append, List.filter_cons, if_pos hpa]
  · exact List.mem_filter.mpr ⟨hb, hpb⟩

theorem mem_depChunks_self {f : M → List M} {ds : List M} {d : M}
    (hd : d ∈ ds) : d ∈ depChunks f ds := by
  induction ds with
  | nil => cases hd
  | cons e es ih =>
    rcases List.mem_cons.mp hd with rfl | hd'
    · exact List.mem_cons_self _ _
    · exact List.mem_cons_of_mem _ (List.mem_append_right _ (ih hd'))

theorem mem_depChunks_trans {f : M → List M} {ds : List M} {d x : M}
    (hd : d ∈ ds) (hx : x ∈ f d) : x ∈ depChunks f ds := by
  induction ds with
  | nil => cases hd
  | cons e es ih =>
    rcases List.mem_cons.mp hd with rfl | hd'
    · exact List.mem_cons_of_mem _ (List.mem_append_left _ hx)
    · exact List.mem_cons_of_mem _ (List.mem_append_right _ (ih hd'))

theorem mem_depChunks_elim {f : M → List M} {ds : List M} {x : M}
    (hx : x ∈ depChunks f ds) : x ∈ ds ∨ ∃ d ∈ ds, x ∈ f d := by
  induction ds with
  | nil => cases hx
  | cons e es ih =>
    rcases List.mem_cons.mp hx with rfl | hx'
    · exact Or.inl (List.mem_cons_self _ _)
    · rcases List.mem_append.mp hx' with hfe | hrest
      · exact Or.inr ⟨e, List.mem_cons_self _ _, hfe⟩
      · rcases ih hrest with h | ⟨d, hd, hfd⟩
        · exact Or.inl (List.mem_cons_of_mem _ h)
        · exact Or.inr ⟨d, List.mem_cons_of_mem _ hd, hfd⟩

theorem followedBy_depChunks {R : M → M → Prop} {f : M → List M} {ds : List M}
    (h : ∀ d ∈ ds, (∀ b, R d b → b ∈ f d) ∧ FollowedBy R (f d)) :
    FollowedBy R (depChunks f ds) := by
  induction ds with
  | nil => trivial
  | cons e es ih =>
    obtain ⟨he, hfe⟩ := h e (List.mem_cons_self _ _)
    refine ⟨fun b hb => List.mem_append_left _ (he b hb), ?_⟩
    exact followedBy_append hfe (ih fun d hd => h d (List.mem_cons_of_mem _ hd))

theorem orderDeps_snd {d s : List M} {f : M → List M} :
    (orderDeps d s f).2 = (orderDeps d s f).1.filter (fun x => decide (x ∈ d)) := rfl

theorem orderDeps_fst {d s : List M} {f : M → List M} :
    (orderDeps d s f).1 = lastUnique (depChunks f d ++ depChunks f s) := rfl

end LinkOrderLemmas

/-! ## The bottom-up pipeline invariant -/

section PipelineInvariant

variable {M : Type} [DecidableEq M]

theorem orderDeps_good {g gs : M → List M} {acc : M → List M × List M} {m : M}
    (hd : ∀ d ∈ g m ++ gs m, GoodPair g gs d (acc d)) :
    GoodPair g gs m (orderDeps (g m) (gs m) (fun d => (acc d).1)) := by
  have hfst : (orderDeps (g m) (gs m) (fun d => (acc d).1)).1
      = lastUnique (depChunks (fun d => (acc d).1) (g m) ++
          depChunks (fun d => (acc d).1) (gs m)) := rfl
  refine ⟨?_, ?_, ?_, orderDeps_snd⟩
  · intro b hb
    rw [hfst]
    apply mem_lastUnique.mpr
    cases hb with
    | direct h =>
        rcases List.mem_append.mp h with h1 | h2
        · exact List.mem_append_left _ (mem_depChunks_self h1)
        · exact List.mem_append_right _ (mem_depChunks_self h2)
    | step h hr =>
        rename_i d'
        have hbmem : b ∈ (acc d').1 := (hd d' h).1 b hr
        rcases List.mem_append.mp h with h1 | h2
        · exact List.mem_append_left _ (mem_depChunks_trans h1 hbmem)
        · exact List.mem_append_right _ (mem_depChunks_trans h2 hbmem)
  · rw [hfst]
    apply followedBy_lastUnique
    apply followedBy_append
    · apply followedBy_depChunks
      intro d hdg
      have h := hd d (List.mem_append_left _ hdg)
      exact ⟨h.1, h.2.1⟩
    · apply followedBy_depChunks
      intro d hdg
      have h := hd d (List.mem_append_right _ hdg)
      exact ⟨h.1, h.2.1⟩
  · rw [hfst]
    exact nodup_lastUnique _

theorem runPipeline_good (g gs : M → List M) :
    ∀ (order seen : List M) (acc : M → List M × List M),
      depsSeen g gs seen order = true →
      (∀ d ∈ seen, GoodRecord g gs acc d) →
      ∀ m, (m ∈ seen ∨ m ∈ order) →
        GoodRecord g gs (runPipeline g gs acc order) m := by
  intro order
  induction order with
  | nil =>
      intro seen acc _ hgood m hm
      rcases hm with hm | hm
      · exact hgood m hm
      · cases hm
  | cons m rest ih =>
      intro seen acc hseen hgood m' hm'
      have hseen2 : ((g m ++ gs m).all (fun d => decide (d ∈ seen)) &&
          depsSeen g gs (m :: seen) rest) = true := hseen
      rw [Bool.and_eq_true] at hseen2
      obtain ⟨hdepsB, hrest⟩ := hseen2
      have hdeps : ∀ d ∈ g m ++ gs m, d ∈ seen := by
        intro d hdm
        simpa using List.all_eq_true.mp hdepsB d hdm
      have hgood' : ∀ d ∈ m :: seen, GoodRecord g gs
          (fun x => if x = m then orderDeps (g m) (gs m) (fun e => (acc e).1) else acc x)
          d := by
        intro d hdm
        by_cases hdm2 : d = m
        · subst hdm2
          show GoodPair g gs d
            (if d = d then orderDeps (g d) (gs d) (fun e => (acc e).1) else acc d)
          rw [if_pos rfl]
          exact orderDeps_good (fun e he => hgood e (hdeps e he))
        · have hds : d ∈ seen := by
            rcases List.mem_cons.mp hdm with h | h
            · exact absurd h hdm2
            · exact h
          show GoodPair g gs d
            (if d = m then orderDeps (g m) (gs m) (fun e => (acc e).1) else acc d)
          rw [if_neg hdm2]
          exact hgood d hds
      have hmem : m' ∈ m :: seen ∨ m' ∈ rest := by
        rcases hm' with h | h
        · exact Or.inl (List.mem_cons_of_mem _ h)
        · rcases List.mem_cons.mp h with h1 | h1
          · exact Or.inl (by rw [h1]; exact List.mem_cons_self _ _)
          · exact Or.inr h1
      exact ih (m :: seen) _ hrest hgood' m' hmem

end PipelineInvariant

/-! ## Claim theorems: link order -/

/-- Claim C1: for every static-dependency input whose dependency relation
is acyclic — witnessed by a bottom-up processing order in which every
module's direct dependencies are processed before it — `orderDeps`
produces a total order, both as the ordered transitive closure and as the
ordered direct list, in which for every pair (A, B) where A transitively
depends on B, B appears after A; the ordered transitive closure contains
every transitively reachable module. -/
theorem c1_orderDeps_acyclic_total_order {M : Type} [DecidableEq M]
    (g gs : M → List M) (order : List M)
    (htopo : depsSeen g gs [] order = true)
    (m : M) (hm : m ∈ order) :
    (∀ b, Reaches (fun x => g x ++ gs x) m b → b ∈ (linkOrders g gs order m).1) ∧
    (∀ A B, Reaches (fun x => g x ++ gs x) A B → A ∈ (linkOrders g gs order m).1 →
      B ∈ (linkOrders g gs order m).1 ∧ Before (linkOrders g gs order m).1 A B) ∧
    (∀ A B, Reaches (fun x => g x ++ gs x) A B → A ∈ g m → B ∈ g m →
      Before (linkOrders g gs order m).2 A B) := by
  have hgr : GoodRecord g gs (linkOrders g gs order) m :=
    runPipeline_good g gs order [] (fun _ => ([], [])) htopo
      (fun d hd => absurd hd (List.not_mem_nil d)) m (Or.inr hm)
  obtain ⟨hcomp, hfb, hnd, hsnd⟩ := hgr
  refine ⟨hcomp, ?_, ?_⟩
  · intro A B hAB hA
    have hbef := before_of_followedBy hfb hA hAB
    exact ⟨mem_of_before hbef, hbef⟩
  · intro A B hAB hAg hBg
    have hA1 : A ∈ (linkOrders g gs order m).1 :=
      hcomp A (Reaches.direct (List.mem_append_left _ hAg))
    have hbef := before_of_followedBy hfb hA1 hAB
    rw [hsnd]
    exact before_filter hbef (decide_eq_true hAg) (decide_eq_true hBg)

/-- Witness for C1: the diamond worked example `a:b,c,d; b:d; c:d` of the
spec and of `staticLinkDepOrderTestCases`.  Its ordered output for `a` is
`[b, c, d]` with the duplicate `d` collapsed to one occurrence, and the
theorem applied to it places `d` after `b`. -/
theorem c1_orderDeps_acyclic_total_order_witness :
    linkOrders diamondStatic emptyDeps diamondOrder "a" =
      (["b", "c", "d"], ["b", "c", "d"]) ∧
    ("d" ∈ (linkOrders diamondStatic emptyDeps diamondOrder "a").1 ∧
      Before (linkOrders diamondStatic emptyDeps diamondOrder "a").1 "b" "d") := by
  refine ⟨rfl, ?_⟩
  exact (c1_orderDeps_acyclic_total_order diamondStatic emptyDeps diamondOrder
    (by decide) "a" (by decide)).2.1 "b" "d" (Reaches.direct (by decide)) (by decide)

/-- Claim C5: shared-library edges contribute to the ordered transitive
closure (`orderedAllDeps`) but are excluded from the direct static
link-line output (`orderedDeclaredDeps`) unless also declared static. -/
theorem c5_shared_in_transitive_not_declared {M : Type} [DecidableEq M]
    (directStatic directShared : List M) (f : M → List M) (s : M)
    (hs : s ∈ directShared) :
    s ∈ (orderDeps directStatic directShared f).1 ∧
    (s ∉ directStatic → s ∉ (orderDeps directStatic directShared f).2) := by
  constructor
  · rw [orderDeps_fst]
    exact mem_lastUnique.mpr (List.mem_append_right _ (mem_depChunks_self hs))
  · intro hns hmem
    rw [orderDeps_snd] at hmem
    exact hns (of_decide_eq_true (List.mem_filter.mp hmem).2)

/-- Witness for C5: the test case `inShared: c:b` — module `c` whose only
dependency is a shared edge to `b` has ordered transitive set `[b]` and
empty direct static output. -/
theorem c5_shared_in_transitive_not_declared_witness :
    orderDeps ([] : List String) ["b"] emptyDeps = (["b"], []) ∧
    "b" ∈ (orderDeps ([] : List String) ["b"] emptyDeps).1 ∧
    "b" ∉ (orderDeps ([] : List String) ["b"] emptyDeps).2 := by
  have h := c5_shared_in_transitive_not_declared ([] : List String) ["b"] emptyDeps "b"
    (by decide)
  exact ⟨rfl, h.1, h.2 (by decide)⟩

/-- Claim C6: the tie-break behavior on order-unconstrained dependencies,
per the two recorded tie-break cases: `a1:d,e,b1,c1; b1:d,e; c1:e,d`
yields `a1:b1,c1,e,d` (the later-declared ordering `e,d` of `c1` wins the
tie), while `a1:b,c,d,e; b:d,e; c:e,d` leaves `a1`'s own declared order
`[b,c,d,e]` unchanged. -/
theorem c6_tie_break_last_depender :
    orderDeps ["d", "e", "b1", "c1"] [] tieStartMap =
      (["b1", "c1", "e", "d"], ["b1", "c1", "e", "d"]) ∧
    orderDeps ["b", "c", "d", "e"] [] tieEndMap =
      (["b", "c", "d", "e"], ["b", "c", "d", "e"]) :=
  ⟨rfl, rfl⟩

/-- Claim C7: duplicate direct dependencies collapse to their last
required position — both outputs of `orderDeps` are always
duplicate-free, and the recorded case `a:b,c,c,b` yields `a:c,b` (the
last occurrences survive, the first-seen duplicates are removed). -/
theorem c7_duplicates_collapse_to_last :
    (∀ (M : Type) [DecidableEq M] (d s : List M) (f : M → List M),
      (orderDeps d s f).1.Nodup ∧ (orderDeps d s f).2.Nodup) ∧
    orderDeps ["b", "c", "c", "b"] [] emptyDeps = (["c", "b"], ["c", "b"]) := by
  refine ⟨?_, rfl⟩
  intro M _ d s f
  refine ⟨?_, ?_⟩
  · rw [orderDeps_fst]
    exact nodup_lastUnique _
  · rw [orderDeps_snd, orderDeps_fst]
    exact List.Nodup.filter _ (nodup_lastUnique _)

/-- Counterexample to claim C8 as stated: in the recorded cyclic case
`a:b,c; b:c,a; c:a,b`, the modules `b` and `c` form a cyclic subset
(each transitively depends on the other), yet the ordered output for `a`
is `[c, b]`, not the unchanged input relative order `[b, c]`. -/
theorem c8_cyclic_subset_order_changes :
    Reaches (fun x => cycleMap x ++ emptyDeps x) "b" "c" ∧
    Reaches (fun x => cycleMap x ++ emptyDeps x) "c" "b" ∧
    (orderDeps ["b", "c"] [] cycleMap).2 = ["c", "b"] ∧
    (orderDeps ["b", "c"] [] cycleMap).2 ≠ ["b", "c"] :=
  ⟨Reaches.direct (by decide), Reaches.direct (by decide), rfl, by decide⟩

/-- Claim C8 (amended): `orderDeps` is a total function — on every input,
including self-loops and cyclic static dependency graphs, it produces a
deterministic result without hanging or aborting; on the three recorded
cyclic cases it produces exactly the recorded outputs (the self-loop
`a:a` keeps its order, but the relative order of a larger cyclic subset
may change). -/
theorem c8_cycles_terminate_deterministically :
    orderDeps ["a"] [] selfLoopMap = (["a"], ["a"]) ∧
    orderDeps ["b"] [] chainCycleMap = (["b", "c"], ["b"]) ∧
    orderDeps ["b", "c"] [] cycleMap = (["c", "a", "b"], ["c", "b"]) :=
  ⟨rfl, rfl, rfl⟩

/-- Claim C10: the direct ordered output of `orderDeps` contains only
modules drawn from the declared direct static dependency list — no module
reachable only transitively is ever inserted — while the transitive
ordered output may contain such modules, as in the recorded case
`bin:lib2,lib1; lib1:lib2,liboptional` where `liboptional` appears only
in the transitive output. -/
theorem c10_declared_only_from_direct {M : Type} [DecidableEq M]
    (d s : List M) (f : M → List M) (x : M)
    (hx : x ∈ (orderDeps d s f).2) : x ∈ d := by
  rw [orderDeps_snd] at hx
  exact of_decide_eq_true (List.mem_filter.mp hx).2

/-- Witness for C10: the recorded case `bin:lib2,lib1;
lib1:lib2,liboptional` — the direct output is `[lib1, lib2]`, only the
transitive output contains `liboptional`, and the theorem applied to
`lib1` places it in the declared input list. -/
theorem c10_declared_only_from_direct_witness :
    orderDeps ["lib2", "lib1"] [] binMap =
      (["lib1", "lib2", "liboptional"], ["lib1", "lib2"]) ∧
    "liboptional" ∈ (orderDeps ["lib2", "lib1"] [] binMap).1 ∧
    "liboptional" ∉ (orderDeps ["lib2", "lib1"] [] binMap).2 ∧
    "lib1" ∈ ["lib2", "lib1"] := by
  refine ⟨rfl, by decide, by decide, ?_⟩
  exact c10_declared_only_from_direct ["lib2", "lib1"] [] binMap "lib1" (by decide)

/-! ## Claim theorems: versioned-stub selection -/

theorem foldlMax_mem {α : Type} (lt : α → α → Bool) (v : α) (rest : List α) :
    rest.foldl (fun best w => if lt best w then w else best) v ∈ v :: rest := by
  induction rest generalizing v with
  | nil => exact List.mem_cons_self _ _
  | cons u us ih =>
      simp only [List.foldl_cons]
      by_cases h : lt v u = true
      · rw [if_pos h]
        rcases List.mem_cons.mp (ih u) with h1 | h1
        · rw [h1]
          exact List.mem_cons_of_mem _ (List.mem_cons_self _ _)
        · exact List.mem_cons_of_mem _ (List.mem_cons_of_mem _ h1)
      · rw [if_neg h]
        rcases List.mem_cons.mp (ih v) with h1 | h1
        · rw [h1]
          exact List.mem_cons_self _ _
        · exact List.mem_cons_of_mem _ (List.mem_cons_of_mem _ h1)

theorem foldlMax_improves {α : Type} (lt : α → α → Bool)
    (htr : ∀ a b c, lt a b = true → lt b c = true → lt a c = true)
    (v : α) (rest : List α) :
    rest.foldl (fun best w => if lt best w then w else best) v = v ∨
      lt v (rest.foldl (fun best w => if lt best w then w else best) v) = true := by
  induction rest generalizing v with
  | nil => exact Or.inl rfl
  | cons u us ih =>
      simp only [List.foldl_cons]
      by_cases h : lt v u = true
      · rw [if_pos h]
        rcases ih u with h1 | h1
        · rw [h1]
          exact Or.inr h
        · exact Or.inr (htr _ _ _ h h1)
      · rw [if_neg h]
        exact ih v

theorem foldlMax_not_lt {α : Type} (lt : α → α → Bool)
    (htr : ∀ a b c, lt a b = true → lt b c = true → lt a c = true)
    (hirr : ∀ a, lt a a = false) (v : α) (rest : List α) :
    ∀ w ∈ v :: rest,
      lt (rest.foldl (fun best x => if lt best x then x else best) v) w = false := by
  induction rest generalizing v with
  | nil =>
      intro w hw
      rcases List.mem_cons.mp hw with heq | hw'
      · rw [heq]
        exact hirr v
      · exact absurd hw' (List.not_mem_nil w)
  | cons u us ih =>
      intro w hw
      simp only [List.foldl_cons]
      by_cases h : lt v u = true
      · rw [if_pos h]
        rcases List.mem_cons.mp hw with heq | hw'
        · cases hval : lt (us.foldl (fun best x => if lt best x then x else best) u) w with
          | false => rfl
          | true =>
              exfalso
              rw [heq] at hval
              have h2 := htr _ _ _ hval h
              have h3 := ih u u (List.mem_cons_self _ _)
              rw [h2] at h3
              exact Bool.noConfusion h3
        · exact ih u w hw'
      · rw [if_neg h]
        rcases List.mem_cons.mp hw with heq | hw'
        · rw [heq]
          exact ih v v (List.mem_cons_self _ _)
        · rcases List.mem_cons.mp hw' with heq | hw''
          · cases hval : lt (us.foldl (fun best x => if lt best x then x else best) v) w with
            | false => rfl
            | true =>
                exfalso
                rw [heq] at hval
                rcases foldlMax_improves lt htr v us with h1 | h1
                · rw [h1] at hval
                  exact h hval
                · exact h (htr _ _ _ h1 hval)
          · exact ih v w (List.mem_cons_of_mem _ hw'')

theorem numLess_trans (a b c : String) (h1 : numLess a b = true)
    (h2 : numLess b c = true) : numLess a c = true := by
  simp only [numLess, decide_eq_true_eq] at h1 h2 ⊢
  omega

theorem numLess_irrefl (a : String) : numLess a a = false := by
  simp [numLess]

theorem lexLtChars_trans : ∀ (x y z : List Char),
    lexLtChars x y = true → lexLtChars y z = true → lexLtChars x z = true := by
  intro x
  induction x with
  | nil =>
      intro y z h1 h2
      cases y with
      | nil => cases h1
      | cons b bs =>
          cases z with
          | nil => cases h2
          | cons c cs => rfl
  | cons a as ih =>
      intro y z h1 h2
      cases y with
      | nil => cases h1
      | cons b bs =>
          cases z with
          | nil => cases h2
          | cons c cs =>
              simp only [lexLtChars] at h1 h2 ⊢
              by_cases hab : a.toNat < b.toNat
              · by_cases hbc : b.toNat < c.toNat
                · rw [if_pos (by omega)]
                · rw [if_neg hbc] at h2
                  by_cases hcb : c.toNat < b.toNat
                  · rw [if_pos hcb] at h2
                    cases h2
                  · rw [if_pos (by omega)]
              · rw [if_neg hab] at h1
                by_cases hba : b.toNat < a.toNat
                · rw [if_pos hba] at h1
                  cases h1
                · rw [if_neg hba] at h1
                  by_cases hbc : b.toNat < c.toNat
                  · rw [if_pos (by omega)]
                  · rw [if_neg hbc] at h2
                    by_cases hcb : c.toNat < b.toNat
                    · rw [if_pos hcb] at h2
                      cases h2
                    · rw [if_neg hcb] at h2
                      rw [if_neg (by omega), if_neg (by omega)]
                      exact ih bs cs h1 h2

theorem lexLtChars_irrefl : ∀ (x : List Char), lexLtChars x x = false := by
  intro x
  induction x with
  | nil => rfl
  | cons a as ih => simp [lexLtChars, ih]

theorem lexLess_trans (a b c : String) (h1 : lexLess a b = true)
    (h2 : lexLess b c = true) : lexLess a c = true :=
  lexLtChars_trans a.data b.data c.data h1 h2

theorem lexLess_irrefl (a : String) : lexLess a a = false :=
  lexLtChars_irrefl a.data

theorem versionLt_trans (vs : List String) (a b c : String)
    (h1 : versionLt vs a b = true) (h2 : versionLt vs b c = true) :
    versionLt vs a c = true := by
  unfold versionLt at h1 h2 ⊢
  by_cases h : allNumeric vs = true
  · rw [if_pos h] at h1 h2 ⊢
    exact numLess_trans a b c h1 h2
  · rw [if_neg h] at h1 h2 ⊢
    exact lexLess_trans a b c h1 h2

theorem versionLt_irrefl (vs : List String) (a : String) :
    versionLt vs a a = false := by
  unfold versionLt
  by_cases h : allNumeric vs = true
  · rw [if_pos h]
    exact numLess_irrefl a
  · rw [if_neg h]
    exact lexLess_irrefl a

/-- Claim C2: when a dependency edge targets a module exposing versioned
stub variants, an explicit `name#v` reference binds to exactly the
version-v stub with no fallback (a missing version is not replaced by any
other), while an unversioned reference selects the latest available stub
version — a member of the offered versions that no offered version
exceeds in the spec's version order (numeric when all versions are
numeric strings, else lexicographic). -/
theorem c2_stub_version_selection (vs : List String) (v r : String)
    (hv : v ∈ vs) (hr : resolveStubVersion vs none = some r) :
    resolveStubVersion vs (some v) = some v ∧
    r ∈ vs ∧ (∀ w ∈ vs, versionLt vs r w = false) := by
  refine ⟨by simp [resolveStubVersion, hv], ?_, ?_⟩
  · cases vs with
    | nil => cases hr
    | cons v₀ rest =>
        have hr' : r = rest.foldl
            (fun best w => if versionLt (v₀ :: rest) best w then w else best) v₀ := by
          have := hr
          simp only [resolveStubVersion, versionLatest, Option.some.injEq] at this
          exact this.symm
        rw [hr']
        exact foldlMax_mem _ v₀ rest
  · cases vs with
    | nil => cases hr
    | cons v₀ rest =>
        have hr' : r = rest.foldl
            (fun best w => if versionLt (v₀ :: rest) best w then w else best) v₀ := by
          have := hr
          simp only [resolveStubVersion, versionLatest, Option.some.injEq] at this
          exact this.symm
        rw [hr']
        exact foldlMax_not_lt (versionLt (v₀ :: rest))
          (versionLt_trans (v₀ :: rest)) (versionLt_irrefl (v₀ :: rest)) v₀ rest

/-- Witness for C2: the `TestVersionedStubs` scenario — available stub
versions {"1", "2", "3"}; an unversioned reference binds to "3", an
explicit `#1` reference binds to exactly "1" despite higher versions
being available, and a reference to an unavailable version has no
fallback. -/
theorem c2_stub_version_selection_witness :
    resolveStubVersion ["1", "2", "3"] none = some "3" ∧
    resolveStubVersion ["1", "2", "3"] (some "1") = some "1" ∧
    resolveStubVersion ["1", "2", "3"] (some "4") = none := by
  have h := c2_stub_version_selection ["1", "2", "3"] "1" "3" (by decide) (by decide)
  exact ⟨by decide, h.1, by decide⟩

/-! ## Claim theorems: dependency resolution -/

theorem mem_of_matching {src : Variant} {tn : String} {vars : List Variant}
    {t : Variant} (h : t ∈ matchingVariants src tn vars) :
    t ∈ vars ∧ t.moduleName = tn ∧ axesMatch src.variations t.variations = true := by
  have h' := List.mem_filter.mp h
  have hcond := h'.2
  rw [Bool.and_eq_true] at hcond
  exact ⟨h'.1, eq_of_beq hcond.1, hcond.2⟩

theorem resolveEdge_ok_sound (src : Variant) (tn : String) (vars : List Variant)
    (t : Variant) (hok : resolveEdge src tn vars = .ok t) :
    t ∈ vars ∧ t.moduleName = tn ∧ axesMatch src.variations t.variations = true ∧
      t.enabled = true := by
  unfold resolveEdge at hok
  rcases hmv : matchingVariants src tn vars with _ | ⟨t₀, _ | ⟨t₁, ts⟩⟩
  · rw [hmv] at hok
    have hok' : (Except.error (.missingVariant src.moduleName tn
        (unmatchedAxis src (vars.filter (fun x => x.moduleName == tn)))) :
        Except ResolveError Variant) = .ok t := hok
    cases hok'
  · rw [hmv] at hok
    have hok' : (if t₀.enabled = true then (Except.ok t₀ : Except ResolveError Variant)
        else .error (.dependsOnDisabledModule src.moduleName t₀.moduleName)) = .ok t := hok
    by_cases he : t₀.enabled = true
    · rw [if_pos he] at hok'
      have ht : t₀ = t := by
        injection hok'
      subst ht
      have hmem : t₀ ∈ matchingVariants src tn vars := by
        rw [hmv]
        exact List.mem_cons_self _ _
      have h3 := mem_of_matching hmem
      exact ⟨h3.1, h3.2.1, h3.2.2, he⟩
    · rw [if_neg he] at hok'
      cases hok'
  · rw [hmv] at hok
    have hok' : (Except.error (.ambiguousVariant src.moduleName tn) :
        Except ResolveError Variant) = .ok t := hok
    cases hok'

/-- Claim C3: a loose edge for which zero variants of the target module
match the source variant's variation tuple on the shared axes resolves to
a `MissingVariantError` naming the source, the target and the unmatched
axis — never a silent drop — and every edge that does get bound has a
target drawn from the target module whose variation tuple matches the
source's on every shared axis. -/
theorem c3_missing_variant_never_dropped (src : Variant) (targetName : String)
    (variants : List Variant)
    (hnone : ∀ t ∈ variants, t.moduleName = targetName →
      axesMatch src.variations t.variations = false) :
    (resolveEdge src targetName variants =
      .error (.missingVariant src.moduleName targetName
        (unmatchedAxis src (variants.filter (fun x => x.moduleName == targetName))))) ∧
    (∀ (src' : Variant) (tn : String) (vars : List Variant) (t : Variant),
      resolveEdge src' tn vars = .ok t →
      t ∈ vars ∧ t.moduleName = tn ∧ axesMatch src'.variations t.variations = true) := by
  constructor
  · have hemp : matchingVariants src targetName variants = [] := by
      apply List.filter_eq_nil_iff.mpr
      intro t ht hc
      rw [Bool.and_eq_true] at hc
      have hfalse := hnone t ht (eq_of_beq hc.1)
      rw [hfalse] at hc
      exact Bool.noConfusion hc.2
    unfold resolveEdge
    rw [hemp]
  · intro src' tn vars t hok
    have h := resolveEdge_ok_sound src' tn vars t hok
    exact ⟨h.1, h.2.1, h.2.2.1⟩

/-- Witness for C3: the first `TestVndkDepError` scenario — the vendor
image variant of `libvndk` depends on `libfwk`, which only has a core
image variant; resolution produces the missing-variant error naming both
modules and the `image` axis, exactly as the test expects
(`dependency ".*" of ".*" missing variant`). -/
theorem c3_missing_variant_never_dropped_witness :
    resolveEdge vndkSrcVariant "libfwk" fwkVariants =
      .error (.missingVariant "libvndk" "libfwk" (some "image")) := by
  have h := c3_missing_variant_never_dropped vndkSrcVariant "libfwk" fwkVariants
    (by decide)
  exact h.1

/-- Claim C4: a dependency edge whose matched target variant is declared
disabled resolves to a `DependsOnDisabledModuleError` naming the
depending and the disabled target module; every edge that is bound points
at an enabled variant; and a disabled variant never appears in the
generator-visible topological traversal. -/
theorem c4_disabled_dependency_error (src : Variant) (targetName : String)
    (variants : List Variant) (t : Variant)
    (hmatch : matchingVariants src targetName variants = [t]) :
    (t.enabled = false →
      resolveEdge src targetName variants =
        .error (.dependsOnDisabledModule src.moduleName t.moduleName)) ∧
    (∀ (src' : Variant) (tn : String) (vars : List Variant) (t' : Variant),
      resolveEdge src' tn vars = .ok t' → t'.enabled = true) ∧
    (∀ (vars : List Variant) (v : Variant), v.enabled = false →
      v ∉ generatorTraversal vars) := by
  refine ⟨?_, ?_, ?_⟩
  · intro hdis
    unfold resolveEdge
    rw [hmatch]
    show (if t.enabled = true then (Except.ok t : Except ResolveError Variant)
      else .error (.dependsOnDisabledModule src.moduleName t.moduleName)) =
      .error (.dependsOnDisabledModule src.moduleName t.moduleName)
    rw [if_neg (by simp [hdis])]
  · intro src' tn vars t' hok
    exact (resolveEdge_ok_sound src' tn vars t' hok).2.2.2
  · intro vars v hdis hmem
    have hcond := (List.mem_filter.mp hmem).2
    rw [hdis] at hcond
    exact Bool.noConfusion hcond

/-- Witness for C4: the `TestErrorsIfAModuleDependsOnDisabled` scenario —
`libA` depends on `libB`, which is declared `enabled: false`; resolution
produces the error naming both modules (the test expects
`module "libA" .* depends on disabled module "libB"`), and the disabled
`libB` variant is absent from the generator-visible traversal. -/
theorem c4_disabled_dependency_error_witness :
    resolveEdge libAVariant "libB" libBVariants =
      .error (.dependsOnDisabledModule "libA" "libB") ∧
    (⟨"libB", [("arch", "arm64")], false⟩ : Variant) ∉ generatorTraversal libBVariants := by
  have h := c4_disabled_dependency_error libAVariant "libB" libBVariants
    ⟨"libB", [("arch", "arm64")], false⟩ rfl
  exact ⟨h.1 rfl, h.2.2 libBVariants _ rfl⟩

/-! ## Claim theorems: cross-boundary policy -/

theorem mem_foldr_append {α β : Type} (f : α → List β) (l : List α) (b : β) :
    b ∈ l.foldr (fun a acc => f a ++ acc) [] ↔ ∃ a ∈ l, b ∈ f a := by
  induction l with
  | nil => simp
  | cons x xs ih =>
      simp only [List.foldr_cons, List.mem_append, ih, List.mem_cons]
      constructor
      · rintro (h | ⟨a, ha, hb⟩)
        · exact ⟨x, Or.inl rfl, h⟩
        · exact ⟨a, Or.inr ha, hb⟩
      · rintro ⟨a, (rfl | ha), hb⟩
        · exact Or.inl hb
        · exact Or.inr ⟨a, ha, hb⟩

theorem mem_moduleViolations {mods : List PolicyModule} {m : PolicyModule}
    {e : BoundaryPolicyError} :
    e ∈ moduleViolations mods m ↔
      m.restricted = true ∧ ∃ t ∈ mods, t.name ∈ m.deps ∧ t.allowListed = false ∧
        t.compatible = false ∧ e = ⟨m.name, t.name⟩ := by
  unfold moduleViolations
  by_cases hr : m.restricted = true
  · rw [if_pos hr, mem_foldr_append]
    constructor
    · rintro ⟨d, hd, he⟩
      obtain ⟨t, htf, rfl⟩ := List.mem_map.mp he
      obtain ⟨htm, hcond⟩ := List.mem_filter.mp htf
      rw [Bool.and_eq_true, Bool.and_eq_true] at hcond
      obtain ⟨⟨hname, hallow⟩, hcompat⟩ := hcond
      refine ⟨hr, t, htm, ?_, ?_, ?_, rfl⟩
      · rw [eq_of_beq hname]
        exact hd
      · simpa using hallow
      · simpa using hcompat
    · rintro ⟨-, t, htm, hdep, hallow, hcompat, rfl⟩
      refine ⟨t.name, hdep, ?_⟩
      apply List.mem_map.mpr
      refine ⟨t, ?_, rfl⟩
      apply List.mem_filter.mpr
      refine ⟨htm, ?_⟩
      rw [Bool.and_eq_true, Bool.and_eq_true]
      exact ⟨⟨beq_self_eq_true t.name, by simp [hallow]⟩, by simp [hcompat]⟩
  · rw [if_neg hr]
    constructor
    · intro h
      cases h
    · rintro ⟨hres, -⟩
      exact absurd hres hr

/-- Claim C9: a module in a restricted/ABI-stable classification that
declares a dependency on a module neither in an allow-listed
classification nor marked compatible produces a boundary-policy error
naming both the depending and the target module — and the check only
reports exactly those violations, never repairing the graph (no error
exists for any other configuration). -/
theorem c9_boundary_policy_errors (mods : List PolicyModule)
    (e : BoundaryPolicyError) :
    e ∈ boundaryCheck mods ↔
      ∃ m ∈ mods, m.restricted = true ∧ ∃ t ∈ mods, t.name ∈ m.deps ∧
        t.allowListed = false ∧ t.compatible = false ∧ e = ⟨m.name, t.name⟩ := by
  unfold boundaryCheck
  rw [mem_foldr_append]
  constructor
  · rintro ⟨m, hm, he⟩
    obtain ⟨hr, t, htm, hdep, hallow, hcompat, heq⟩ := mem_moduleViolations.mp he
    exact ⟨m, hm, hr, t, htm, hdep, hallow, hcompat, heq⟩
  · rintro ⟨m, hm, hr, t, htm, hdep, hallow, hcompat, heq⟩
    exact ⟨m, hm, mem_moduleViolations.mpr ⟨hr, t, htm, hdep, hallow, hcompat, heq⟩⟩

/-- Witness for C9: the `TestDoubleLoadableDepError` scenario — the
restricted `libllndk` depends on `libnondoubleloadable`, which is neither
allow-listed nor marked compatible; the check produces exactly one error
naming both modules, and the theorem applied to the scenario confirms the
error's membership. -/
theorem c9_boundary_policy_errors_witness :
    boundaryCheck boundaryScenario =
      [{ source := "libllndk", target := "libnondoubleloadable" }] ∧
    ({ source := "libllndk", target := "libnondoubleloadable" } : BoundaryPolicyError) ∈
      boundaryCheck boundaryScenario := by
  refine ⟨rfl, ?_⟩
  exact (c9_boundary_policy_errors boundaryScenario _).mpr
    ⟨llndkModule, by decide, rfl, nonDoubleLoadableModule, by decide, by decide,
      rfl, rfl, rfl⟩

end SoongModel
